import Mathlib

/-!
Verification development for the gogen repository: a shallow embedding of
its intermediate model (internal/model), configuration (internal/config),
parser extraction (internal/parser) and the resolution / flattening engine
(internal/generator), together with theorems settling the spec claims.

Strings are modelled with Lean `String` (a wrapper around `List Char`);
Go maps keyed by strings are modelled as association lists with
first-match lookup and replace-or-append update, which matches Go map
semantics whenever keys are unique (the code only inserts per distinct
key or deliberately overwrites).
-/

namespace Gogen

/-- Models `model.TypeKind` (a Go string enumeration) as a closed
inductive with the same constant names. -/
inductive TypeKind where
  | KindStruct
  | KindAlias
  | KindNamed
  | KindBasic
  | KindSlice
  | KindArray
  | KindMap
  | KindPointer
  | KindInterface
  deriving DecidableEq

/-- Models `model.TypeRef`: one record with a `kind` discriminant and
optionally-present children `elem`, `key`, `value` (Go pointer fields,
nil modelled as `none`).  Recursive, so an inductive with one
constructor. -/
inductive TypeRef where
  | mk (kind : TypeKind) (name : String) (pkg : String)
       (elem : Option TypeRef) (key : Option TypeRef) (value : Option TypeRef)
       (raw : String)

def TypeRef.kind : TypeRef → TypeKind
  | .mk k _ _ _ _ _ _ => k

def TypeRef.name : TypeRef → String
  | .mk _ n _ _ _ _ _ => n

def TypeRef.pkg : TypeRef → String
  | .mk _ _ p _ _ _ _ => p

def TypeRef.elem : TypeRef → Option TypeRef
  | .mk _ _ _ e _ _ _ => e

def TypeRef.key : TypeRef → Option TypeRef
  | .mk _ _ _ _ k _ _ => k

def TypeRef.value : TypeRef → Option TypeRef
  | .mk _ _ _ _ _ v _ => v

def TypeRef.raw : TypeRef → String
  | .mk _ _ _ _ _ _ r => r

/-- Models `model.StructTag` (raw tag plus parsed key/value map). -/
structure StructTag where
  raw : String
  values : List (String × String)
  deriving DecidableEq

/-- Models `model.Field`. -/
structure Field where
  name : String
  type : TypeRef
  tag : StructTag
  doc : String
  isExported : Bool
  isEmbedded : Bool

/-- Models `model.Type` (named `Ty` because `Type` is a Lean universe).
`model.File` (package, path, imports, type list) is represented by the
`List Ty` of its declarations where needed: no claim touches the other
fields. -/
structure Ty where
  name : String
  kind : TypeKind
  doc : String
  fields : List Field
  underlying : Option TypeRef
  isExported : Bool

/-- Go map lookup (`m[k]` with its `ok` flag) on an association list. -/
def alookup {α : Type} : List (String × α) → String → Option α
  | [], _ => none
  | (k, v) :: rest, key => if k = key then some v else alookup rest key

/-- Go map update (`m[k] = v`) on an association list: replace the
existing entry for the key, or append a new one. -/
def aset {α : Type} : List (String × α) → String → α → List (String × α)
  | [], k, v => [(k, v)]
  | (k0, v0) :: rest, k, v =>
      if k0 = k then (k, v) :: rest else (k0, v0) :: aset rest k v

/-- Models `config.Options`. -/
structure Options where
  perType : Bool
  exportedOnly : Bool
  tagKey : String
  includeTypes : List String
  excludeTypes : List String
  deriving DecidableEq

/-- Models `config.Config`. -/
structure Config where
  typeMappings : List (String × String)
  options : Options
  deriving DecidableEq

/-- Models `Config.MapType`: mapping lookup with identity fallback. -/
def Config.MapType (c : Config) (goType : String) : String :=
  match alookup c.typeMappings goType with
  | some mapped => mapped
  | none => goType

/-- Models `Config.ShouldIncludeType`: exported-only gate, then
non-empty include list membership, then exclude list veto. -/
def Config.ShouldIncludeType (c : Config) (name : String) (isExported : Bool) : Bool :=
  if c.options.exportedOnly ∧ isExported = false then false
  else if c.options.includeTypes ≠ [] ∧ name ∉ c.options.includeTypes then false
  else if name ∈ c.options.excludeTypes then false
  else true

/-- Models `Config.merge` (config.go lines 71-90): type mappings merged
key-by-key with the loaded value winning; `tagKey` replaced only when
non-empty; `perType` explicit-true-wins; `exportedOnly` and the two
name lists replaced unconditionally by the loaded document's values. -/
def Config.merge (c loaded : Config) : Config :=
  { typeMappings := loaded.typeMappings.foldl (fun m kv => aset m kv.1 kv.2) c.typeMappings
    options :=
      { tagKey := if loaded.options.tagKey ≠ "" then loaded.options.tagKey else c.options.tagKey
        perType := if loaded.options.perType then true else c.options.perType
        exportedOnly := loaded.options.exportedOnly
        includeTypes := loaded.options.includeTypes
        excludeTypes := loaded.options.excludeTypes } }

/-- The three name-based lookups of `generator.mapType` (funcs.go lines
76-92), in priority order: exact `raw` match, then qualified
`pkg.name` match (only when `pkg` is non-empty), then bare `name`
match; a lookup counts as a match only when the mapped value differs
from the key.  `fb` is the composite/structural fallback computed by
the kind switch that follows the lookups in the source. -/
def mapTypeLookup (cfg : Config) (raw p n fb : String) : String :=
  if cfg.MapType raw ≠ raw then cfg.MapType raw
  else if p ≠ "" ∧ cfg.MapType (p ++ "." ++ n) ≠ p ++ "." ++ n then cfg.MapType (p ++ "." ++ n)
  else if cfg.MapType n ≠ n then cfg.MapType n
  else fb

/-- Models `generator.mapType` (funcs.go lines 75-114).  The source does
the three lookups first and then switches on `Kind` (with nil checks on
the children); here the kind switch is the outer pattern match and the
lookups are factored into `mapTypeLookup`, which computes the same
result. -/
def mapType (cfg : Config) : TypeRef → String
  | .mk .KindSlice n p (some e) _ _ raw =>
      mapTypeLookup cfg raw p n (mapType cfg e ++ "[]")
  | .mk .KindArray n p (some e) _ _ raw =>
      mapTypeLookup cfg raw p n (mapType cfg e ++ "[]")
  | .mk .KindMap n p _ (some k) (some v) raw =>
      mapTypeLookup cfg raw p n ("Record<" ++ mapType cfg k ++ ", " ++ mapType cfg v ++ ">")
  | .mk .KindPointer n p (some e) _ _ raw =>
      mapTypeLookup cfg raw p n (mapType cfg e ++ " | null")
  | .mk .KindInterface n p _ _ _ raw =>
      mapTypeLookup cfg raw p n "unknown"
  | .mk _ n p _ _ _ raw =>
      mapTypeLookup cfg raw p n n

/-- Every branch of `mapType` is `mapTypeLookup` applied to the
reference's `raw`, `pkg` and `name`, with some kind-dependent
structural fallback. -/
theorem mapType_eq_lookup (cfg : Config) (t : TypeRef) :
    ∃ fb, mapType cfg t = mapTypeLookup cfg t.raw t.pkg t.name fb := by
  obtain ⟨k, n, p, elem, key, value, raw⟩ := t
  cases k <;> first
    | exact ⟨_, rfl⟩
    | · cases elem with
        | none => exact ⟨_, rfl⟩
        | some e => exact ⟨_, rfl⟩
    | · cases key with
        | none => exact ⟨_, rfl⟩
        | some kk =>
            cases value with
            | none => exact ⟨_, rfl⟩
            | some vv => exact ⟨_, rfl⟩

/-- Models the `ast.Expr` shapes that `parser.typeRefFromExpr`
distinguishes: identifier, selector (qualified name), star (pointer),
array/slice (`hasLen` stands for a non-nil `Len` expression), map,
interface body, channel, function type, variadic ellipsis, and a
default `other` constructor for every remaining node shape. -/
inductive Expr where
  | ident (name : String)
  | selector (x : Expr) (sel : String)
  | star (x : Expr)
  | array (hasLen : Bool) (elt : Expr)
  | mapT (key : Expr) (value : Expr)
  | interfaceT
  | chanT (value : Expr)
  | funcT
  | ellipsis (elt : Expr)
  | other

/-- Models `parser.typeRefFromExpr` (total conversion of a type
expression to a `TypeRef`). -/
def typeRefFromExpr : Expr → TypeRef
  | .ident name => .mk .KindBasic name "" none none none name
  | .selector x sel =>
      let p := match x with
        | .ident n => n
        | _ => ""
      .mk .KindNamed sel p none none none (p ++ "." ++ sel)
  | .star x =>
      let e := typeRefFromExpr x
      .mk .KindPointer "" "" (some e) none none ("*" ++ e.raw)
  | .array hasLen elt =>
      let e := typeRefFromExpr elt
      if hasLen then .mk .KindArray "" "" (some e) none none ("[...]" ++ e.raw)
      else .mk .KindSlice "" "" (some e) none none ("[]" ++ e.raw)
  | .mapT key value =>
      let k := typeRefFromExpr key
      let v := typeRefFromExpr value
      .mk .KindMap "" "" none (some k) (some v) ("map[" ++ k.raw ++ "]" ++ v.raw)
  | .interfaceT =>
      .mk .KindInterface "interface\x7b\x7d" "" none none none "interface\x7b\x7d"
  | .chanT value =>
      let e := typeRefFromExpr value
      .mk .KindBasic "chan" "" (some e) none none ("chan " ++ e.raw)
  | .funcT => .mk .KindBasic "func" "" none none none "func"
  | .ellipsis elt =>
      let e := typeRefFromExpr elt
      .mk .KindSlice "" "" (some e) none none ("..." ++ e.raw)
  | .other => .mk .KindBasic "unknown" "" none none none "unknown"

/-- Models `ast.IsExported`: first character uppercase (ASCII view of
Go's first-rune `unicode.IsUpper` test). -/
def isExportedName (s : String) : Bool :=
  match s.toList with
  | [] => false
  | c :: _ => c.isUpper

/-- One entry of an `ast.FieldList`: the bound names, the type
expression, the struct tag (already parsed into `StructTag`; the
claims do not touch `parser.parseTag` itself) and the doc comment. -/
structure AstField where
  names : List String
  type : Expr
  tag : StructTag
  doc : String

/-- Models `parser.extractFields`: an entry with zero bound names
becomes one embedded field named after the converted reference's
`name`; otherwise one field per bound name. -/
def extractFields : List AstField → List Field
  | [] => []
  | f :: rest =>
      let typeRef := typeRefFromExpr f.type
      (match f.names with
       | [] =>
           [{ name := typeRef.name, type := typeRef, tag := f.tag, doc := f.doc,
              isExported := isExportedName typeRef.name, isEmbedded := true }]
       | ns =>
           ns.map fun nm =>
             { name := nm, type := typeRef, tag := f.tag, doc := f.doc,
               isExported := isExportedName nm, isEmbedded := false })
      ++ extractFields rest

/-- Mapping table and reference for the C2 priority example. -/
def cfgC2 : Config :=
  ⟨[("pkg.Decimal", "string-a"), ("Decimal", "string-b")],
   ⟨false, true, "json", [], []⟩⟩

def refC2 : TypeRef := .mk .KindNamed "Decimal" "pkg" none none none "pkg.Decimal"

/-- C2: `mapType` tries the lookups in strict priority order with first
success winning — exact `raw` match first, then `pkg.name` (only when
the qualifier is non-empty), then bare `name`; with mappings
pkg.Decimal ↦ string-a and Decimal ↦ string-b, a reference with
raw = pkg.Decimal, qualifier = pkg, name = Decimal maps to string-a. -/
theorem c2_mapType_priority :
    (∀ (cfg : Config) (t : TypeRef), cfg.MapType t.raw ≠ t.raw →
        mapType cfg t = cfg.MapType t.raw)
    ∧ (∀ (cfg : Config) (t : TypeRef), cfg.MapType t.raw = t.raw → t.pkg ≠ "" →
        cfg.MapType (t.pkg ++ "." ++ t.name) ≠ t.pkg ++ "." ++ t.name →
        mapType cfg t = cfg.MapType (t.pkg ++ "." ++ t.name))
    ∧ (∀ (cfg : Config) (t : TypeRef), cfg.MapType t.raw = t.raw →
        (t.pkg = "" ∨ cfg.MapType (t.pkg ++ "." ++ t.name) = t.pkg ++ "." ++ t.name) →
        cfg.MapType t.name ≠ t.name →
        mapType cfg t = cfg.MapType t.name)
    ∧ mapType cfgC2 refC2 = "string-a" := by
  refine ⟨?_, ?_, ?_, by decide⟩
  · intro cfg t h
    obtain ⟨fb, hfb⟩ := mapType_eq_lookup cfg t
    rw [hfb]
    simp [mapTypeLookup, h]
  · intro cfg t h1 h2 h3
    obtain ⟨fb, hfb⟩ := mapType_eq_lookup cfg t
    rw [hfb]
    simp [mapTypeLookup, h1, h2, h3]
  · intro cfg t h1 h2 h3
    obtain ⟨fb, hfb⟩ := mapType_eq_lookup cfg t
    rcases h2 with h2 | h2 <;>
      · rw [hfb]
        simp [mapTypeLookup, h1, h2, h3]

/-- Witness for C2: the raw-level match fires on the example. -/
theorem c2_mapType_priority_witness :
    mapType cfgC2 refC2 = cfgC2.MapType refC2.raw :=
  c2_mapType_priority.1 cfgC2 refC2 (by decide)

/-- C5: after `merge`, `exportedOnly` always equals the loaded
document's value (direct replace, never retained from the defaults),
while `perType` stays true if either side set it
(explicit-true-wins). -/
theorem c5_merge_exportedOnly_direct_replace :
    ∀ c loaded : Config,
      (c.merge loaded).options.exportedOnly = loaded.options.exportedOnly
      ∧ (c.merge loaded).options.perType
          = (c.options.perType || loaded.options.perType) := by
  intro c loaded
  refine ⟨rfl, ?_⟩
  show (if loaded.options.perType then true else c.options.perType)
      = (c.options.perType || loaded.options.perType)
  cases hl : loaded.options.perType <;> cases hc : c.options.perType <;> simp

/-- Mapping table and references for the C6 identity-mapping example. -/
def cfgC6 : Config := ⟨[("string", "string")], ⟨false, true, "json", [], []⟩⟩

def strRef : TypeRef := .mk .KindBasic "string" "" none none none "string"

def seqStrRef : TypeRef := .mk .KindSlice "" "" (some strRef) none none "[]string"

/-- C6: a mapping entry whose value equals its key is treated as no
entry at that priority level and the lookup falls through (here: down
to the structural slice rule); a `Sequence` of `Primitive` string under
the identity table string ↦ string resolves to `string[]`. -/
theorem c6_identity_mapping_falls_through :
    (∀ (cfg : Config) (t e : TypeRef), cfg.MapType t.raw = t.raw →
        (t.pkg = "" ∨ cfg.MapType (t.pkg ++ "." ++ t.name) = t.pkg ++ "." ++ t.name) →
        cfg.MapType t.name = t.name →
        t.kind = .KindSlice → t.elem = some e →
        mapType cfg t = mapType cfg e ++ "[]")
    ∧ alookup cfgC6.typeMappings "string" = some "string"
    ∧ mapType cfgC6 seqStrRef = "string[]" := by
  refine ⟨?_, by decide, by decide⟩
  intro cfg t e h1 h2 h3 h4 h5
  obtain ⟨k, n, p, elem, key, value, raw⟩ := t
  simp only [TypeRef.kind] at h4
  simp only [TypeRef.elem] at h5
  subst h4
  subst h5
  show mapTypeLookup cfg raw p n (mapType cfg e ++ "[]") = mapType cfg e ++ "[]"
  simp only [TypeRef.raw, TypeRef.pkg, TypeRef.name] at h1 h2 h3
  rcases h2 with h2 | h2 <;> simp [mapTypeLookup, h1, h2, h3]

/-- Witness for C6: the general fall-through rule applied to the
concrete identity table and sequence reference. -/
theorem c6_identity_mapping_falls_through_witness :
    mapType cfgC6 seqStrRef = mapType cfgC6 strRef ++ "[]" :=
  c6_identity_mapping_falls_through.1 cfgC6 seqStrRef strRef
    (by decide) (Or.inl (by decide)) (by decide) rfl rfl

/-- Configuration for the C7 inclusion/exclusion example. -/
def cfgC7 : Config := ⟨[], ⟨false, true, "json", ["User"], ["User"]⟩⟩

/-- C7: `ShouldIncludeType` checks the exported-only gate first (an
unexported name is rejected whenever `exportedOnly` is set, regardless
of the lists), then requires membership in a non-empty include list,
and an exclude-list hit always returns false; with include = exclude =
"User", the exported "User" is rejected. -/
theorem c7_shouldInclude_order :
    (∀ (cfg : Config) (name : String), cfg.options.exportedOnly = true →
        cfg.ShouldIncludeType name false = false)
    ∧ (∀ (cfg : Config) (name : String) (ex : Bool),
        cfg.options.includeTypes ≠ [] → name ∉ cfg.options.includeTypes →
        cfg.ShouldIncludeType name ex = false)
    ∧ (∀ (cfg : Config) (name : String) (ex : Bool),
        name ∈ cfg.options.excludeTypes → cfg.ShouldIncludeType name ex = false)
    ∧ cfgC7.ShouldIncludeType "User" true = false := by
  refine ⟨?_, ?_, ?_, by decide⟩
  · intro cfg name h
    simp [Config.ShouldIncludeType, h]
  · intro cfg name ex h1 h2
    unfold Config.ShouldIncludeType
    by_cases hx : cfg.options.exportedOnly ∧ ex = false
    · simp [hx]
    · simp [hx, h1, h2]
  · intro cfg name ex h
    unfold Config.ShouldIncludeType
    by_cases hx : cfg.options.exportedOnly ∧ ex = false
    · simp [hx]
    · by_cases hi : cfg.options.includeTypes ≠ [] ∧ name ∉ cfg.options.includeTypes
      · simp [hx, hi]
      · simp [hx, hi, h]

/-- Witness for C7: the exported-only gate fires on an unexported name
under the example configuration. -/
theorem c7_shouldInclude_order_witness :
    cfgC7.ShouldIncludeType "internal" false = false :=
  c7_shouldInclude_order.1 cfgC7 "internal" rfl

/-- A field-list entry with zero bound names whose type is `*T`. -/
def c3Entry : AstField := ⟨[], Expr.star (Expr.ident "T"), ⟨"", []⟩, ""⟩

/-- C3 counterexample: an embedded field of type `*T` is NOT extracted
with field name "T" — `typeRefFromExpr` leaves a pointer reference's
`name` empty and `extractFields` copies that, so the field is named
"". -/
theorem c3_embedded_pointer_name_cex :
    ¬ ((extractFields [c3Entry]).map (fun g => g.name) = ["T"]) := by decide

/-- C3 (amended): an entry with zero bound names yields exactly one
field with `isEmbedded = true` whose name is the converted reference's
`name`: the bare name for an identifier type, but the empty string for
a pointer type (the leading pointer is not stripped when naming). -/
theorem c3_embedded_field_name (f : AstField) (rest : List AstField)
    (h : f.names = []) :
    extractFields (f :: rest)
      = { name := (typeRefFromExpr f.type).name, type := typeRefFromExpr f.type,
          tag := f.tag, doc := f.doc,
          isExported := isExportedName (typeRefFromExpr f.type).name,
          isEmbedded := true } :: extractFields rest
    ∧ (∀ s, f.type = Expr.ident s → (typeRefFromExpr f.type).name = s)
    ∧ (∀ x, f.type = Expr.star x → (typeRefFromExpr f.type).name = "") := by
  refine ⟨?_, ?_, ?_⟩
  · simp [extractFields, h]
  · intro s hs
    rw [hs]
    rfl
  · intro x hx
    rw [hx]
    rfl

/-- Witness for C3: the amended rule evaluated on the `*T` entry. -/
theorem c3_embedded_field_name_witness :
    extractFields [c3Entry]
      = [{ name := (typeRefFromExpr c3Entry.type).name,
           type := typeRefFromExpr c3Entry.type,
           tag := c3Entry.tag, doc := c3Entry.doc,
           isExported := isExportedName (typeRefFromExpr c3Entry.type).name,
           isEmbedded := true }] :=
  (c3_embedded_field_name c3Entry [] rfl).1

/-- C4 counterexample: a channel type expression does not convert to a
reference named "unknown" (its reference is named "chan"). -/
theorem c4_chan_not_unknown_cex :
    (typeRefFromExpr (Expr.chanT (Expr.ident "int"))).name ≠ "unknown" := by
  decide

/-- C4 (amended): the conversion is total (a Lean function by
construction, mirroring the default arm of the source switch), and it
never errors; but channels become a Primitive reference named "chan"
(keeping the element and raw "chan ..."), function types a Primitive
named "func", and only otherwise-unrecognized shapes the Primitive
"unknown" fallback. -/
theorem c4_total_fallbacks :
    (∀ x, typeRefFromExpr (Expr.chanT x)
        = .mk .KindBasic "chan" "" (some (typeRefFromExpr x)) none none
            ("chan " ++ (typeRefFromExpr x).raw))
    ∧ typeRefFromExpr Expr.funcT = .mk .KindBasic "func" "" none none none "func"
    ∧ typeRefFromExpr Expr.other
        = .mk .KindBasic "unknown" "" none none none "unknown" :=
  ⟨fun _ => rfl, rfl, rfl⟩

/-- Models `generator.ValidateRule` (a rule name with an optional
value; absent value is the Go zero string). -/
structure ValidateRule where
  name : String
  value : String
  deriving DecidableEq

/-- Models `strings.Split(s, ",")` on the character list of `s`. -/
def splitComma : List Char → List (List Char)
  | [] => [[]]
  | c :: rest =>
      let r := splitComma rest
      if c = ',' then [] :: r
      else
        match r with
        | [] => [[c]]
        | h :: t => (c :: h) :: t

/-- The whitespace test of `strings.TrimSpace` (ASCII subset). -/
def isSpaceChar (c : Char) : Bool :=
  c = ' ' ∨ c = '\t' ∨ c = '\n' ∨ c = '\r'

/-- Models `strings.TrimSpace` on a character list. -/
def trimSpace (l : List Char) : List Char :=
  ((l.dropWhile isSpaceChar).reverse.dropWhile isSpaceChar).reverse

/-- One iteration of the `parseValidateTag` loop body after trimming:
`strings.Index(part, "=")` with the `idx > 0` test, expressed by
splitting `part` at the first `=`: the characters strictly before it
are `takeWhile`, the separator and the rest are `dropWhile`.  No `=`
present (`dropWhile` empty) or `=` at index 0 (`takeWhile` empty)
gives a name-only rule; otherwise the name is `part[:idx]` and the
value `part[idx+1:]`. -/
def parseRulePart (part : List Char) : ValidateRule :=
  if part.dropWhile (fun c => c != '=') = [] then ⟨part.asString, ""⟩
  else if part.takeWhile (fun c => c != '=') = [] then ⟨part.asString, ""⟩
  else ⟨(part.takeWhile (fun c => c != '=')).asString,
        ((part.dropWhile (fun c => c != '=')).tail).asString⟩

/-- Models `generator.parseValidateTag` (funcs.go of the validate
helper file, lines 306-332): missing or empty validate tag gives no
rules; otherwise split on commas, trim each part, skip empty parts,
and parse each part as name or name=value, in order. -/
def parseValidateTag (field : Field) : List ValidateRule :=
  match alookup field.tag.values "validate" with
  | none => []
  | some tagValue =>
      if tagValue = "" then []
      else
        (splitComma tagValue.toList).foldr
          (fun part acc =>
            let p := trimSpace part
            if p = [] then acc else parseRulePart p :: acc) []

/-- The comma-separated source spelling of a rule: `name` when the
value is empty, else `name=value`. -/
def ruleToken (r : ValidateRule) : List Char :=
  if r.value = "" then r.name.toList
  else r.name.toList ++ '=' :: r.value.toList

/-- Comma-join of a token list (the shape of a well-formed tag). -/
def joinComma : List (List Char) → List Char
  | [] => []
  | [x] => x
  | x :: xs => x ++ ',' :: joinComma xs

lemma splitComma_no_comma (x : List Char) (h : ',' ∉ x) :
    splitComma x = [x] := by
  induction x with
  | nil => rfl
  | cons c rest ih =>
      have hc : ¬ c = ',' := fun hc => h (hc ▸ List.mem_cons_self c rest)
      have hr : ',' ∉ rest := fun hm => h (List.mem_cons_of_mem c hm)
      simp [splitComma, hc, ih hr]

lemma splitComma_append (x rest : List Char) (h : ',' ∉ x) :
    splitComma (x ++ ',' :: rest) = x :: splitComma rest := by
  induction x with
  | nil => simp [splitComma]
  | cons c x' ih =>
      have hc : ¬ c = ',' := fun hc => h (hc ▸ List.mem_cons_self c x')
      have hx : ',' ∉ x' := fun hm => h (List.mem_cons_of_mem c hm)
      simp [splitComma, hc, ih hx]

lemma splitComma_joinComma (tokens : List (List Char)) (hne : tokens ≠ [])
    (h : ∀ t ∈ tokens, ',' ∉ t) :
    splitComma (joinComma tokens) = tokens := by
  induction tokens with
  | nil => exact absurd rfl hne
  | cons x xs ih =>
      cases xs with
      | nil =>
          exact splitComma_no_comma x (h x (List.mem_cons_self x []))
      | cons y ys =>
          have hx : ',' ∉ x := h x (List.mem_cons_self x (y :: ys))
          have hrest : ∀ t ∈ y :: ys, ',' ∉ t :=
            fun t ht => h t (List.mem_cons_of_mem x ht)
          show splitComma (x ++ ',' :: joinComma (y :: ys)) = x :: (y :: ys)
          rw [splitComma_append x _ hx, ih (by simp) hrest]

lemma trimSpace_eq_self (l : List Char)
    (h : ∀ c ∈ l, isSpaceChar c = false) : trimSpace l = l := by
  have h1 : l.dropWhile isSpaceChar = l := by
    cases l with
    | nil => rfl
    | cons c rest =>
        simp [List.dropWhile, h c (List.mem_cons_self c rest)]
  have h2 : l.reverse.dropWhile isSpaceChar = l.reverse := by
    cases hr : l.reverse with
    | nil => rfl
    | cons c rest =>
        have hc : c ∈ l := by
          rw [← List.mem_reverse, hr]
          exact List.mem_cons_self c rest
        simp [List.dropWhile, h c hc]
  simp [trimSpace, h1, h2]

lemma dropWhile_sep (n v : List Char) (h : ∀ c ∈ n, c ≠ '=') :
    (n ++ '=' :: v).dropWhile (fun c => c != '=') = '=' :: v := by
  induction n with
  | nil => rfl
  | cons c n' ih =>
      have hc : (c != '=') = true := by
        simpa using h c (List.mem_cons_self c n')
      have hn : ∀ x ∈ n', x ≠ '=' := fun x hx => h x (List.mem_cons_of_mem c hx)
      rw [List.cons_append, List.dropWhile_cons, hc, if_pos rfl]
      exact ih hn

lemma takeWhile_sep (n v : List Char) (h : ∀ c ∈ n, c ≠ '=') :
    (n ++ '=' :: v).takeWhile (fun c => c != '=') = n := by
  induction n with
  | nil => rfl
  | cons c n' ih =>
      have hc : (c != '=') = true := by
        simpa using h c (List.mem_cons_self c n')
      have hn : ∀ x ∈ n', x ≠ '=' := fun x hx => h x (List.mem_cons_of_mem c hx)
      rw [List.cons_append, List.takeWhile_cons, hc, if_pos rfl, ih hn]

/-- A well-formed rule: non-empty name; no `=`, comma or space in the
name; no comma or space in the value. -/
def RuleWF (r : ValidateRule) : Prop :=
  r.name ≠ ""
  ∧ (∀ c ∈ r.name.toList, c ≠ '=' ∧ c ≠ ',' ∧ isSpaceChar c = false)
  ∧ (∀ c ∈ r.value.toList, c ≠ ',' ∧ isSpaceChar c = false)

instance (r : ValidateRule) : Decidable (RuleWF r) := by
  unfold RuleWF
  infer_instance

lemma string_toList_eq_nil (s : String) (h : s.toList = []) : s = "" := by
  cases s with
  | mk data => cases data with
    | nil => rfl
    | cons c cs => simp [String.toList, String.data] at h

lemma parseRulePart_token (r : ValidateRule) (hwf : RuleWF r) :
    parseRulePart (ruleToken r) = r := by
  obtain ⟨nm, vl⟩ := r
  obtain ⟨hname, hn, hv⟩ := hwf
  have hnoeq : ∀ c ∈ nm.toList, c ≠ '=' := fun c hc => (hn c hc).1
  have hnmne : nm.toList ≠ [] := fun h => hname (string_toList_eq_nil _ h)
  by_cases hval : vl = ""
  · subst hval
    have htok : ruleToken ⟨nm, ""⟩ = nm.toList := if_pos rfl
    have hdrop : (nm.toList).dropWhile (fun c => c != '=') = [] := by
      rw [List.dropWhile_eq_nil_iff]
      intro c hc
      simpa using hnoeq c hc
    rw [htok]
    unfold parseRulePart
    rw [hdrop, if_pos rfl]
    rfl
  · have htok : ruleToken ⟨nm, vl⟩ = nm.toList ++ '=' :: vl.toList :=
      if_neg hval
    have hd := dropWhile_sep nm.toList vl.toList hnoeq
    have ht := takeWhile_sep nm.toList vl.toList hnoeq
    rw [htok]
    unfold parseRulePart
    rw [hd, ht, if_neg (List.cons_ne_nil '=' vl.toList), if_neg hnmne]
    rfl

lemma ruleToken_no_comma (r : ValidateRule) (hwf : RuleWF r) :
    ',' ∉ ruleToken r := by
  obtain ⟨hname, hn, hv⟩ := hwf
  intro hm
  unfold ruleToken at hm
  by_cases hval : r.value = ""
  · rw [if_pos hval] at hm
    exact (hn ',' hm).2.1 rfl
  · rw [if_neg hval] at hm
    rcases List.mem_append.1 hm with hm | hm
    · exact (hn ',' hm).2.1 rfl
    · rcases List.mem_cons.1 hm with hm | hm
      · exact absurd hm (by decide)
      · exact (hv ',' hm).1 rfl

lemma ruleToken_no_space (r : ValidateRule) (hwf : RuleWF r) :
    ∀ c ∈ ruleToken r, isSpaceChar c = false := by
  obtain ⟨hname, hn, hv⟩ := hwf
  intro c hc
  unfold ruleToken at hc
  by_cases hval : r.value = ""
  · rw [if_pos hval] at hc
    exact (hn c hc).2.2
  · rw [if_neg hval] at hc
    rcases List.mem_append.1 hc with hc | hc
    · exact (hn c hc).2.2
    · rcases List.mem_cons.1 hc with hc | hc
      · rw [hc]
        decide
      · exact (hv c hc).2

lemma ruleToken_ne_nil (r : ValidateRule) (hwf : RuleWF r) :
    ruleToken r ≠ [] := by
  obtain ⟨hname, _, _⟩ := hwf
  have hne : r.name.toList ≠ [] := fun h => hname (string_toList_eq_nil _ h)
  unfold ruleToken
  by_cases hval : r.value = ""
  · rw [if_pos hval]
    exact hne
  · rw [if_neg hval]
    intro h
    exact hne (List.append_eq_nil.1 h).1

lemma foldr_ruleTokens (rs : List ValidateRule) (hwf : ∀ r ∈ rs, RuleWF r) :
    (rs.map ruleToken).foldr
      (fun part acc =>
        let p := trimSpace part
        if p = [] then acc else parseRulePart p :: acc) [] = rs := by
  induction rs with
  | nil => rfl
  | cons r rs' ih =>
      have hr := hwf r (List.mem_cons_self r rs')
      have hrest : ∀ x ∈ rs', RuleWF x := fun x hx => hwf x (List.mem_cons_of_mem r hx)
      have htrim : trimSpace (ruleToken r) = ruleToken r :=
        trimSpace_eq_self _ (ruleToken_no_space r hr)
      have hne := ruleToken_ne_nil r hr
      simp only [List.map_cons, List.foldr_cons]
      rw [htrim, if_neg hne, parseRulePart_token r hr, ih hrest]

lemma joinComma_ne_nil (x : List Char) (xs : List (List Char)) (hx : x ≠ []) :
    joinComma (x :: xs) ≠ [] := by
  cases xs with
  | nil => simpa [joinComma] using hx
  | cons y ys => simp [joinComma]

/-- C9: for a field whose validate annotation is the comma-joined
spelling of well-formed rules (each `name` or `name=value`), parsing
recovers exactly that ordered rule list, pairing each name with its
value (empty when no `=` is written). -/
theorem c9_parseValidateTag (rs : List ValidateRule) (f : Field)
    (hne : rs ≠ []) (hwf : ∀ r ∈ rs, RuleWF r)
    (hv : alookup f.tag.values "validate"
        = some (joinComma (rs.map ruleToken)).asString) :
    parseValidateTag f = rs := by
  obtain ⟨r0, rs', rfl⟩ : ∃ r0 rs', rs = r0 :: rs' := by
    cases rs with
    | nil => exact absurd rfl hne
    | cons a b => exact ⟨a, b, rfl⟩
  have hr0 := hwf r0 (List.mem_cons_self r0 rs')
  have hjoin_ne : joinComma ((r0 :: rs').map ruleToken) ≠ [] :=
    joinComma_ne_nil _ _ (ruleToken_ne_nil r0 hr0)
  have hstr_ne : (joinComma ((r0 :: rs').map ruleToken)).asString ≠ "" := by
    intro h
    exact hjoin_ne (by simpa using congrArg String.toList h)
  have hsplit : splitComma ((joinComma ((r0 :: rs').map ruleToken)).asString).toList
      = (r0 :: rs').map ruleToken := by
    have : ((joinComma ((r0 :: rs').map ruleToken)).asString).toList
        = joinComma ((r0 :: rs').map ruleToken) := rfl
    rw [this]
    refine splitComma_joinComma _ (by simp) ?_
    intro t ht
    rw [List.mem_map] at ht
    obtain ⟨r, hr, rfl⟩ := ht
    exact ruleToken_no_comma r (hwf r hr)
  unfold parseValidateTag
  rw [hv]
  simp only [hstr_ne, if_neg hstr_ne, hsplit]
  exact foldr_ruleTokens _ hwf

/-- The concrete field of the C9 example, carrying
validate:"required,min=1,max=45". -/
def c9Field : Field :=
  { name := "Age", type := .mk .KindBasic "int" "" none none none "int",
    tag := ⟨"validate:\x22required,min=1,max=45\x22",
            [("validate", "required,min=1,max=45")]⟩,
    doc := "", isExported := true, isEmbedded := false }

/-- Witness for C9: "required,min=1,max=45" parses to the ordered rule
list [(required,""), (min,"1"), (max,"45")]. -/
theorem c9_parseValidateTag_witness :
    parseValidateTag c9Field
      = [⟨"required", ""⟩, ⟨"min", "1"⟩, ⟨"max", "45"⟩] :=
  c9_parseValidateTag [⟨"required", ""⟩, ⟨"min", "1"⟩, ⟨"max", "45"⟩] c9Field
    (by decide) (by decide) (by decide)

/-- The embedded type name resolution of `flattenFields` (generator.go
lines 133-137): the field type's name, or — when that is empty and an
element exists — the element's name (one level of pointer unwrapped). -/
def embeddedTypeName (t : TypeRef) : String :=
  if t.name = "" then
    match t.elem with
    | some e => e.name
    | none => t.name
  else t.name

/-- The loop body of `Generator.flattenFields` (generator.go lines
123-161) over the field list.  The Go recursion carries a mutable
`seen` map: inserted before the map lookup, removed only on the
successful path, shared down the recursion and across loop iterations
— modelled here by threading the `seen` list through and returning it.
`rec` is the recursive call applied to an embedded record's own fields
(one level deeper); stratifying it by fuel in `flattenFields` below
keeps the definition structurally recursive, and the stability theorem
shows any fuel of at least `freeCount tm seen` gives the same,
fuel-independent result — the termination argument for the unbounded
Go recursion. -/
def flattenLoop (tm : List (String × Ty))
    (rec : List Field → List String → List Field × List String) :
    List Field → List String → List Field × List String
  | [], seen => ([], seen)
  | f :: fs, seen =>
    if f.isEmbedded = false then
      let r := flattenLoop tm rec fs seen
      (f :: r.1, r.2)
    else
      let typeName := embeddedTypeName f.type
      if typeName ∈ seen then
        flattenLoop tm rec fs seen
      else
        match alookup tm typeName with
        | some et =>
          if et.kind = TypeKind.KindStruct then
            let a := rec et.fields (typeName :: seen)
            let b := flattenLoop tm rec fs (a.2.erase typeName)
            (a.1 ++ b.1, b.2)
          else flattenLoop tm rec fs (typeName :: seen)
        | none => flattenLoop tm rec fs (typeName :: seen)

/-- `Generator.flattenFields`, stratified by fuel: each fuel level runs
the loop with the next lower level as the embedded-record recursion;
at fuel 0 an embedded record contributes nothing (unreachable once the
fuel reaches `freeCount tm seen`, by the stability theorem). -/
def flattenFields (tm : List (String × Ty)) :
    Nat → List Field → List String → List Field × List String
  | 0 => flattenLoop tm (fun _ seen => ([], seen))
  | fuel + 1 => flattenLoop tm (flattenFields tm fuel)

/-- The distinct keys of the declarations-by-name map. -/
def tmKeys (tm : List (String × Ty)) : List String :=
  (tm.map Prod.fst).dedup

/-- Number of distinct map keys not yet in `seen`: an upper bound on
the remaining embedded-recursion depth. -/
def freeCount (tm : List (String × Ty)) (seen : List String) : Nat :=
  ((tmKeys tm).filter (fun k => decide (k ∉ seen))).length

lemma flattenLoop_seen_mono (tm : List (String × Ty))
    (rec : List Field → List String → List Field × List String)
    (hrec : ∀ fl s, ∀ x ∈ s, x ∈ (rec fl s).2) :
    ∀ (fields : List Field) (seen : List String),
      ∀ x ∈ seen, x ∈ (flattenLoop tm rec fields seen).2 := by
  intro fields
  induction fields with
  | nil =>
      intro seen x hx
      simpa [flattenLoop] using hx
  | cons f fs ih =>
      intro seen x hx
      by_cases hemb : f.isEmbedded = false
      · simpa [flattenLoop, hemb] using ih seen x hx
      · by_cases hmem : embeddedTypeName f.type ∈ seen
        · simpa [flattenLoop, hemb, hmem] using ih seen x hx
        · cases halook : alookup tm (embeddedTypeName f.type) with
          | none =>
              simpa [flattenLoop, hemb, hmem, halook] using
                ih (embeddedTypeName f.type :: seen) x (List.mem_cons_of_mem _ hx)
          | some et =>
              by_cases hkind : et.kind = TypeKind.KindStruct
              · have hxa : x ∈ (rec et.fields (embeddedTypeName f.type :: seen)).2 :=
                  hrec _ _ x (List.mem_cons_of_mem _ hx)
                have hxne : x ≠ embeddedTypeName f.type := fun h => hmem (h ▸ hx)
                have hxe := (List.mem_erase_of_ne hxne).2 hxa
                simpa [flattenLoop, hemb, hmem, halook, hkind] using ih _ x hxe
              · simpa [flattenLoop, hemb, hmem, halook, hkind] using
                  ih (embeddedTypeName f.type :: seen) x (List.mem_cons_of_mem _ hx)

lemma flattenFields_seen_mono (tm : List (String × Ty)) :
    ∀ (fuel : Nat) (fields : List Field) (seen : List String),
      ∀ x ∈ seen, x ∈ (flattenFields tm fuel fields seen).2 := by
  intro fuel
  induction fuel with
  | zero =>
      exact flattenLoop_seen_mono tm _ (fun fl s x hx => hx)
  | succ n ih =>
      exact flattenLoop_seen_mono tm _ (fun fl s x hx => ih fl s x hx)

lemma alookup_mem_keys {α : Type} (tm : List (String × α)) (k : String) (v : α)
    (h : alookup tm k = some v) : k ∈ tm.map Prod.fst := by
  induction tm with
  | nil => cases h
  | cons p tm ih =>
      obtain ⟨k0, v0⟩ := p
      by_cases hk : k0 = k
      · simp [hk]
      · rw [show alookup ((k0, v0) :: tm) k
            = if k0 = k then some v0 else alookup tm k from rfl, if_neg hk] at h
        exact List.mem_cons_of_mem _ (ih h)

lemma length_filter_mono (l : List String) (s s' : List String)
    (h : ∀ x ∈ s, x ∈ s') :
    (l.filter (fun k => decide (k ∉ s'))).length
      ≤ (l.filter (fun k => decide (k ∉ s))).length := by
  induction l with
  | nil => simp
  | cons a l ih =>
      by_cases ha : a ∈ s'
      · have h1 : (decide (a ∉ s')) = false := by simp [ha]
        rw [List.filter_cons, h1]
        refine le_trans ih ?_
        by_cases ha2 : a ∈ s
        · have h2 : (decide (a ∉ s)) = false := by simp [ha2]
          rw [List.filter_cons, h2]
          simp
        · have h2 : (decide (a ∉ s)) = true := by simp [ha2]
          rw [List.filter_cons, h2]
          simp [Nat.le_succ]
      · have ha2 : a ∉ s := fun hm => ha (h a hm)
        have h1 : (decide (a ∉ s')) = true := by simp [ha]
        have h2 : (decide (a ∉ s)) = true := by simp [ha2]
        rw [List.filter_cons, h1, List.filter_cons, h2]
        exact Nat.succ_le_succ ih

lemma freeCount_mono (tm : List (String × Ty)) (s s' : List String)
    (h : ∀ x ∈ s, x ∈ s') : freeCount tm s' ≤ freeCount tm s :=
  length_filter_mono (tmKeys tm) s s' h

lemma length_filter_insert_lt (l : List String) (a : String) (s : List String)
    (hal : a ∈ l) (has : a ∉ s) :
    (l.filter (fun k => decide (k ∉ a :: s))).length
      < (l.filter (fun k => decide (k ∉ s))).length := by
  induction l with
  | nil => cases hal
  | cons x l ih =>
      by_cases hx : x = a
      · subst hx
        have h1 : (decide (x ∉ x :: s)) = false := by simp
        have h2 : (decide (x ∉ s)) = true := by simp [has]
        rw [List.filter_cons, h1, List.filter_cons, h2]
        have hle := length_filter_mono l s (x :: s)
          (fun y hy => List.mem_cons_of_mem x hy)
        exact Nat.lt_succ_of_le hle
      · have hal' : a ∈ l := by
          rcases List.mem_cons.1 hal with h1 | h1
          · exact absurd h1.symm hx
          · exact h1
        by_cases hxs : x ∈ s
        · have h1 : (decide (x ∉ x :: s)) = false := by simp
          have h1' : (decide (x ∉ a :: s)) = false := by
            simp [List.mem_cons.2 (Or.inr hxs)]
          have h2 : (decide (x ∉ s)) = false := by simp [hxs]
          rw [List.filter_cons, h1', List.filter_cons, h2]
          exact ih hal'
        · have h1 : (decide (x ∉ a :: s)) = true := by
            simp [List.mem_cons, hx, hxs]
          have h2 : (decide (x ∉ s)) = true := by simp [hxs]
          rw [List.filter_cons, h1, List.filter_cons, h2]
          exact Nat.succ_lt_succ (ih hal')

lemma freeCount_insert_lt (tm : List (String × Ty)) (a : String)
    (s : List String) (et : Ty) (hl : alookup tm a = some et) (has : a ∉ s) :
    freeCount tm (a :: s) < freeCount tm s :=
  length_filter_insert_lt (tmKeys tm) a s
    (List.mem_dedup.2 (alookup_mem_keys tm a et hl)) has

/-- Two runs of the loop whose embedded-record recursions agree on
every `seen` set strictly below the budget `c` produce the same
result, whenever the starting `seen` is within budget. -/
lemma flattenLoop_congr (tm : List (String × Ty))
    (r1 r2 : List Field → List String → List Field × List String) (c : Nat)
    (hrec : ∀ fl s, freeCount tm s < c → r1 fl s = r2 fl s)
    (hmono : ∀ fl s, ∀ x ∈ s, x ∈ (r1 fl s).2) :
    ∀ (fields : List Field) (seen : List String), freeCount tm seen ≤ c →
      flattenLoop tm r1 fields seen = flattenLoop tm r2 fields seen := by
  intro fields
  induction fields with
  | nil =>
      intro seen _
      rfl
  | cons f fs ih =>
      intro seen hc
      by_cases hemb : f.isEmbedded = false
      · simp only [flattenLoop, hemb, reduceIte]
        rw [ih seen hc]
      · by_cases hmem : embeddedTypeName f.type ∈ seen
        · simp only [flattenLoop, hemb, hmem, reduceIte]
          exact ih seen hc
        · have hsub : ∀ x ∈ seen, x ∈ embeddedTypeName f.type :: seen :=
            fun x hx => List.mem_cons_of_mem _ hx
          have hfree := freeCount_mono tm seen (embeddedTypeName f.type :: seen) hsub
          cases halook : alookup tm (embeddedTypeName f.type) with
          | none =>
              simp only [flattenLoop, hemb, hmem, reduceIte, halook]
              exact ih _ (le_trans hfree hc)
          | some et =>
              by_cases hkind : et.kind = TypeKind.KindStruct
              · have hlt := freeCount_insert_lt tm (embeddedTypeName f.type) seen et
                  halook hmem
                have ha : r1 et.fields (embeddedTypeName f.type :: seen)
                    = r2 et.fields (embeddedTypeName f.type :: seen) :=
                  hrec _ _ (Nat.lt_of_lt_of_le hlt hc)
                have hsub2 : ∀ x ∈ seen,
                    x ∈ ((r1 et.fields (embeddedTypeName f.type :: seen)).2.erase
                      (embeddedTypeName f.type)) := by
                  intro x hx
                  have hxne : x ≠ embeddedTypeName f.type := fun h => hmem (h ▸ hx)
                  exact (List.mem_erase_of_ne hxne).2
                    (hmono _ _ x (List.mem_cons_of_mem _ hx))
                have hfree2 := freeCount_mono tm seen _ hsub2
                rw [ha] at hfree2
                simp only [flattenLoop, hemb, hmem, reduceIte, halook, hkind]
                rw [ha, ih _ (le_trans hfree2 hc)]
                simp
              · simp only [flattenLoop, hemb, hmem, reduceIte, halook, hkind]
                exact ih _ (le_trans hfree hc)

lemma flattenFields_succ_agree (tm : List (String × Ty)) :
    ∀ (n : Nat) (fields : List Field) (seen : List String),
      freeCount tm seen ≤ n →
      flattenFields tm n fields seen = flattenFields tm (n + 1) fields seen := by
  intro n
  induction n with
  | zero =>
      intro fields seen h
      exact flattenLoop_congr tm _ _ 0 (fun fl s hlt => absurd hlt (Nat.not_lt_zero _))
        (fun fl s x hx => hx) fields seen h
  | succ n ih =>
      intro fields seen h
      exact flattenLoop_congr tm _ _ (n + 1)
        (fun fl s hlt => ih fl s (Nat.lt_succ_iff.1 hlt))
        (flattenFields_seen_mono tm n) fields seen h

/-- Fuel-indifference: once the fuel reaches `freeCount tm seen`
(distinct map keys not yet seen), the result of `flattenFields` no
longer depends on it — the shallow-embedding statement that the Go
recursion needs only a finite, input-bounded depth. -/
lemma flattenFields_stable (tm : List (String × Ty)) :
    ∀ (n : Nat) (fields : List Field) (m : Nat) (seen : List String),
      freeCount tm seen ≤ n → freeCount tm seen ≤ m →
      flattenFields tm n fields seen = flattenFields tm m fields seen := by
  have key : ∀ (d n : Nat) (fields : List Field) (seen : List String),
      freeCount tm seen ≤ n →
      flattenFields tm n fields seen = flattenFields tm (n + d) fields seen := by
    intro d
    induction d with
    | zero => intro n fields seen _; rfl
    | succ d ih =>
        intro n fields seen h
        rw [ih n fields seen h, ← Nat.add_assoc]
        exact flattenFields_succ_agree tm (n + d) fields seen
          (le_trans h (Nat.le_add_right n d))
  intro n fields m seen hn hm
  rcases Nat.le_total n m with hnm | hnm
  · obtain ⟨d, rfl⟩ := Nat.le.dest hnm
    exact key d n fields seen hn
  · obtain ⟨d, rfl⟩ := Nat.le.dest hnm
    exact (key d m fields seen hm).symm

/-- C1: the flattening recursion terminates on every input, including
embedding cycles — formally, its fuel-indexed embedding is independent
of the fuel once the fuel reaches the finite bound `freeCount tm []` —
and two invocations with a fresh empty `seen` set (any two sufficient
fuels) produce the same field sequence. -/
theorem c1_flatten_terminates (tm : List (String × Ty)) (fields : List Field)
    (fuel1 fuel2 : Nat)
    (h1 : freeCount tm [] ≤ fuel1) (h2 : freeCount tm [] ≤ fuel2) :
    flattenFields tm fuel1 fields [] = flattenFields tm fuel2 fields [] :=
  flattenFields_stable tm fuel1 fields fuel2 [] h1 h2

/-- Fixtures for the C1 cycle example: `A` embeds `B`, `B` embeds `A`. -/
def emptyTag : StructTag := ⟨"", []⟩

def fieldEmbB : Field :=
  ⟨"B", .mk .KindBasic "B" "" none none none "B", emptyTag, "", true, true⟩

def fieldFa : Field :=
  ⟨"Fa", .mk .KindBasic "int" "" none none none "int", emptyTag, "", true, false⟩

def fieldEmbA : Field :=
  ⟨"A", .mk .KindBasic "A" "" none none none "A", emptyTag, "", true, true⟩

def fieldFb : Field :=
  ⟨"Fb", .mk .KindBasic "string" "" none none none "string", emptyTag, "", true, false⟩

def tyA : Ty := ⟨"A", .KindStruct, "", [fieldEmbB, fieldFa], none, true⟩

def tyB : Ty := ⟨"B", .KindStruct, "", [fieldEmbA, fieldFb], none, true⟩

def tmCycle : List (String × Ty) := [("A", tyA), ("B", tyB)]

/-- Witness for C1: on the two-record embedding cycle, fuel 2 and
fuel 7 (both at least the bound, which is 2) agree. -/
theorem c1_flatten_terminates_witness :
    freeCount tmCycle [] ≤ 2 ∧ freeCount tmCycle [] ≤ 7
    ∧ flattenFields tmCycle 2 tyA.fields [] = flattenFields tmCycle 7 tyA.fields [] :=
  ⟨by decide, by decide,
   c1_flatten_terminates tmCycle tyA.fields 2 7 (by decide) (by decide)⟩

lemma flattenLoop_nonembedded (tm : List (String × Ty))
    (rec : List Field → List String → List Field × List String) :
    ∀ (fields : List Field) (seen : List String),
      (∀ f ∈ fields, f.isEmbedded = false) →
      flattenLoop tm rec fields seen = (fields, seen) := by
  intro fields
  induction fields with
  | nil =>
      intro seen _
      rfl
  | cons f fs ih =>
      intro seen h
      have hf : f.isEmbedded = false := h f (List.mem_cons_self f fs)
      have hrest : ∀ x ∈ fs, x.isEmbedded = false :=
        fun x hx => h x (List.mem_cons_of_mem f hx)
      simp only [flattenLoop, hf, reduceIte]
      rw [ih seen hrest]

lemma flatten_nonembedded (tm : List (String × Ty)) (fuel : Nat) :
    ∀ (fields : List Field) (seen : List String),
      (∀ f ∈ fields, f.isEmbedded = false) →
      flattenFields tm fuel fields seen = (fields, seen) := by
  cases fuel with
  | zero => exact flattenLoop_nonembedded tm _
  | succ n => exact flattenLoop_nonembedded tm _

/-- Fixtures for the C8 order example. -/
def fieldX : Field :=
  ⟨"X", .mk .KindBasic "int" "" none none none "int", emptyTag, "", true, false⟩

def fieldY : Field :=
  ⟨"Y", .mk .KindBasic "int" "" none none none "int", emptyTag, "", true, false⟩

def fieldZ : Field :=
  ⟨"Z", .mk .KindBasic "int" "" none none none "int", emptyTag, "", true, false⟩

def plainB : Field :=
  ⟨"PlainB", .mk .KindBasic "bool" "" none none none "bool", emptyTag, "", true, false⟩

def embA8 : Field :=
  ⟨"EmbeddedA", .mk .KindBasic "EmbeddedA" "" none none none "EmbeddedA",
   emptyTag, "", true, true⟩

def embC8 : Field :=
  ⟨"EmbeddedC", .mk .KindBasic "EmbeddedC" "" none none none "EmbeddedC",
   emptyTag, "", true, true⟩

def tyEmbA : Ty := ⟨"EmbeddedA", .KindStruct, "", [fieldX, fieldY], none, true⟩

def tyEmbC : Ty := ⟨"EmbeddedC", .KindStruct, "", [fieldZ], none, true⟩

def tmC8 : List (String × Ty) := [("EmbeddedA", tyEmbA), ("EmbeddedC", tyEmbC)]

/-- C8: flattening preserves field order — non-embedded fields pass
through unchanged in their positions, and each embedded slot is
replaced in place by the embedded record's flattened field sequence;
[EmbeddedA, plainB, EmbeddedC] with EmbeddedA = [x,y] and
EmbeddedC = [z] flattens to [x, y, plainB, z]. -/
theorem c8_flatten_order :
    (∀ (tm : List (String × Ty)) (fuel : Nat) (fields : List Field)
        (seen : List String),
        (∀ f ∈ fields, f.isEmbedded = false) →
        (flattenFields tm fuel fields seen).1 = fields)
    ∧ (flattenFields tmC8 (freeCount tmC8 []) [embA8, plainB, embC8] []).1
        = [fieldX, fieldY, plainB, fieldZ] := by
  constructor
  · intro tm fuel fields seen h
    rw [flatten_nonembedded tm fuel fields seen h]
  · rfl

/-- Witness for C8: the pass-through part evaluated on a singleton
non-embedded field list. -/
theorem c8_flatten_order_witness :
    (flattenFields tmC8 3 [plainB] []).1 = [plainB] :=
  c8_flatten_order.1 tmC8 3 [plainB] [] (by decide)

/-- Models `Generator.filterTypes` (generator.go lines 92-102). -/
def filterTypes (cfg : Config) (types : List Ty) : List Ty :=
  types.filter fun t => cfg.ShouldIncludeType t.name t.isExported

/-- The declarations-by-name map built by `Generate` (generator.go
lines 53-56): from ALL types of the file, before any filtering. -/
def buildTypeMap (types : List Ty) : List (String × Ty) :=
  types.foldl (fun m t => aset m t.name t) []

/-- Models `Generator.flattenEmbedded` (generator.go lines 105-120);
each struct's fields are flattened with a fresh empty `seen` set, at
the stable fuel bound. -/
def flattenEmbedded (types : List Ty) (typeMap : List (String × Ty)) : List Ty :=
  types.map fun t =>
    if t.kind = TypeKind.KindStruct then
      { t with fields := (flattenFields typeMap (freeCount typeMap []) t.fields []).1 }
    else t

/-- The filtering and flattening pipeline of `Generator.Generate`
(generator.go lines 50-59): filter with the configuration, but flatten
against the by-name map of all declarations. -/
def generateTypes (fileTypes : List Ty) (cfg : Config) : List Ty :=
  flattenEmbedded (filterTypes cfg fileTypes) (buildTypeMap fileTypes)

/-- Unfolding equation for the loop at an embedded field whose type
resolves to a struct declaration not yet seen. -/
lemma flattenLoop_cons_embedded (tm : List (String × Ty))
    (rec : List Field → List String → List Field × List String)
    (f : Field) (fs : List Field) (seen : List String) (et : Ty)
    (a : List Field × List String)
    (hf : f.isEmbedded = true)
    (hmem : embeddedTypeName f.type ∉ seen)
    (hlook : alookup tm (embeddedTypeName f.type) = some et)
    (hkind : et.kind = TypeKind.KindStruct)
    (ha : rec et.fields (embeddedTypeName f.type :: seen) = a) :
    flattenLoop tm rec (f :: fs) seen
      = (a.1 ++ (flattenLoop tm rec fs (a.2.erase (embeddedTypeName f.type))).1,
         (flattenLoop tm rec fs (a.2.erase (embeddedTypeName f.type))).2) := by
  subst ha
  simp only [flattenLoop, hf, hmem, hlook, hkind, reduceIte]
  simp

/-- C10 (implicit): the declarations-by-name map used for flattening is
built from all declarations of the unit, not just the filtered ones: a
record kept by the filter, embedding a record the filter rejects,
still has the rejected record's fields spliced in, while the rejected
record itself is absent from the output. -/
theorem c10_flatten_uses_unfiltered_map (cfg : Config) (host emb : Ty)
    (embF pf : Field)
    (hhost : cfg.ShouldIncludeType host.name host.isExported = true)
    (hembQ : cfg.ShouldIncludeType emb.name emb.isExported = false)
    (hhk : host.kind = TypeKind.KindStruct)
    (hhf : host.fields = [embF, pf])
    (hef : embF.isEmbedded = true)
    (hname : embeddedTypeName embF.type = emb.name)
    (hek : emb.kind = TypeKind.KindStruct)
    (hplain : ∀ f ∈ emb.fields, f.isEmbedded = false)
    (hpf : pf.isEmbedded = false)
    (hne : host.name ≠ emb.name) :
    generateTypes [host, emb] cfg = [{ host with fields := emb.fields ++ [pf] }] := by
  have hfilter : filterTypes cfg [host, emb] = [host] := by
    simp [filterTypes, hhost, hembQ]
  have htm : buildTypeMap [host, emb] = [(host.name, host), (emb.name, emb)] := by
    simp [buildTypeMap, aset, hne]
  have hkeys : tmKeys [(host.name, host), (emb.name, emb)] = [host.name, emb.name] := by
    show ([host.name, emb.name]).dedup = [host.name, emb.name]
    rw [List.dedup_cons_of_not_mem (by simp [hne]),
        List.dedup_cons_of_not_mem (by simp), List.dedup_nil]
  have hfree : freeCount [(host.name, host), (emb.name, emb)] [] = 2 := by
    simp [freeCount, hkeys]
  have hlook : alookup [(host.name, host), (emb.name, emb)]
      (embeddedTypeName embF.type) = some emb := by
    rw [hname]
    show (if host.name = emb.name then some host
          else alookup [(emb.name, emb)] emb.name) = some emb
    rw [if_neg hne]
    show (if emb.name = emb.name then some emb else alookup [] emb.name) = some emb
    rw [if_pos rfl]
  have hflat : ∀ n : Nat,
      flattenFields [(host.name, host), (emb.name, emb)] (n + 1) [embF, pf] []
        = (emb.fields ++ [pf], []) := by
    intro n
    have ha : flattenFields [(host.name, host), (emb.name, emb)] n
        emb.fields (embeddedTypeName embF.type :: []) = (emb.fields, [emb.name]) := by
      rw [hname]
      exact flatten_nonembedded [(host.name, host), (emb.name, emb)] n
        emb.fields [emb.name] hplain
    have hb := flattenLoop_nonembedded [(host.name, host), (emb.name, emb)]
      (flattenFields [(host.name, host), (emb.name, emb)] n) [pf] []
      (by
        intro f hf
        rw [List.mem_singleton.1 hf]
        exact hpf)
    show flattenLoop [(host.name, host), (emb.name, emb)]
        (flattenFields [(host.name, host), (emb.name, emb)] n) [embF, pf] []
      = (emb.fields ++ [pf], [])
    rw [flattenLoop_cons_embedded [(host.name, host), (emb.name, emb)]
      (flattenFields [(host.name, host), (emb.name, emb)] n) embF [pf] [] emb
      (emb.fields, [emb.name]) hef (List.not_mem_nil _) hlook hek ha]
    show (emb.fields
        ++ (flattenLoop [(host.name, host), (emb.name, emb)]
            (flattenFields [(host.name, host), (emb.name, emb)] n) [pf]
            (List.erase [emb.name] (embeddedTypeName embF.type))).1,
      (flattenLoop [(host.name, host), (emb.name, emb)]
            (flattenFields [(host.name, host), (emb.name, emb)] n) [pf]
            (List.erase [emb.name] (embeddedTypeName embF.type))).2)
      = (emb.fields ++ [pf], [])
    rw [hname, List.erase_cons_head, hb]
  have hflat2 : flattenFields [(host.name, host), (emb.name, emb)]
      (freeCount [(host.name, host), (emb.name, emb)] []) [embF, pf] []
        = (emb.fields ++ [pf], []) := by
    rw [hfree]
    exact hflat 1
  unfold generateTypes
  rw [hfilter, htm]
  unfold flattenEmbedded
  rw [List.map_cons, List.map_nil, if_pos hhk, hhf, hflat2]

/-- Fixtures for the C10 witness: exported `User` embeds unexported
`meta` under exportedOnly, so `meta` is filtered out of the output but
its field `X` is still spliced into `User`. -/
def fieldEmbMeta : Field :=
  ⟨"meta", .mk .KindBasic "meta" "" none none none "meta", emptyTag, "", false, true⟩

def fieldOwn : Field :=
  ⟨"Own", .mk .KindBasic "int" "" none none none "int", emptyTag, "", true, false⟩

def tyUser : Ty := ⟨"User", .KindStruct, "", [fieldEmbMeta, fieldOwn], none, true⟩

def tyMeta : Ty := ⟨"meta", .KindStruct, "", [fieldX], none, false⟩

def cfgC10 : Config := ⟨[], ⟨false, true, "json", [], []⟩⟩

/-- Witness for C10: with exportedOnly on, unexported `meta` is
rejected by the filter yet its field is flattened into `User`. -/
theorem c10_flatten_uses_unfiltered_map_witness :
    generateTypes [tyUser, tyMeta] cfgC10
      = [{ tyUser with fields := tyMeta.fields ++ [fieldOwn] }] :=
  c10_flatten_uses_unfiltered_map cfgC10 tyUser tyMeta fieldEmbMeta fieldOwn
    (by decide) (by decide) rfl rfl rfl (by decide) rfl (by decide) (by decide)
    (by decide)

end Gogen
